import Mathlib

/-!
Shallow embedding of the hop-scheduler proof-of-concept simulator
(`sim.py`, `scheduler.py`, `topology.py`, `traffic.py`).

Conventions of the embedding:
* numpy float arithmetic is modelled over `ℝ`; integer quantities over `ℕ`/`ℤ`;
  python floats appearing in results (`pdr`, mean latency) over `ℚ`, since they
  are ratios of integers.
* numpy arrays are modelled as functions `ℕ → _` together with the length they
  are used at; python lists of known content as Lean lists.
* The process-wide seeded numpy RNG is modelled as an abstract stream of
  naturals with a cursor (`Gen`); each primitive draw consumes one stream
  position.  A categorical / integer draw is the stream value reduced into the
  required support; the distribution itself is external to the program.  A
  Poisson draw with mean `0` is `0` with probability one, so the model returns
  `0` exactly for zero-mean entries and an arbitrary stream value otherwise.
  `Gen.pois` counts the calls to `np.random.poisson` (one vectorized call per
  count vector), used to state how often the traffic generator is invoked.
* The networkx graph is external; `Net` models its query interface: the node
  count and `nx.shortest_path` (`none` standing for a `NetworkXNoPath`
  exception).  The simulator only ever consumes shortest paths, never the raw
  edge structure.
* Python exceptions that escape `run` are modelled with `Except Err`;
  the `try/except` in the service loop catches `NetworkXNoPath`/`IndexError`
  and is therefore total (failures become drops).
-/

namespace HopPoc

/-- `sim.py` `Packet`: destination node, class, hop count (mutable, starts at
`0`), birth time. -/
structure Packet where
  dst : ℕ
  cls : ℕ
  hop : ℕ
  birth : ℕ
deriving DecidableEq, Inhabited

/-- Model of the process-wide seeded numpy RNG: an abstract stream of natural
numbers with a cursor `k`; `pois` counts calls to `np.random.poisson`. -/
structure Gen where
  stream : ℕ → ℕ
  k : ℕ
  pois : ℕ

/-- One primitive draw: the current stream value, cursor advanced by one. -/
def Gen.next (g : Gen) : ℕ × Gen :=
  (g.stream g.k, { g with k := g.k + 1 })

/-- A `Gen` as produced by `np.random.seed(seed)`: the seed selects the stream
of the (external) PRNG; the cursor starts at the beginning. -/
def Gen.ofSeed (prng : ℕ → ℕ → ℕ) (seed : ℕ) : Gen :=
  ⟨prng seed, 0, 0⟩

/-- Entrywise counts of one vectorized Poisson call: a zero-mean entry is `0`
with certainty, a nonzero-mean entry is an unconstrained value of the external
stream.  One stream position per entry. -/
def poisCounts (stream : ℕ → ℕ) : ℕ → List ℚ → List ℕ
  | _, [] => []
  | k, a :: rest => (if a = 0 then 0 else stream k) :: poisCounts stream (k + 1) rest

/-- `traffic.py` `poisson_arrivals(lam_vec)`: one vectorized
`np.random.poisson(lam_vec)` call. -/
def poisson_arrivals (g : Gen) (lam : List ℚ) : List ℕ × Gen :=
  (poisCounts g.stream g.k lam,
   { g with k := g.k + lam.length, pois := g.pois + 1 })

/-- Model of the external networkx graph built by `topology.build_grid`:
node identifiers `0..N-1` and the shortest-path query `nx.shortest_path`
(`none` = `NetworkXNoPath`). -/
structure Net where
  N : ℕ
  path : ℕ → ℕ → Option (List ℕ)

/-- Exceptions that can escape `run` (uncaught python errors). -/
inductive Err where
  | noPath
  | emptyInit
  | lamIndex
  | clsIndex
  | dstRange
deriving DecidableEq

/-- `sim.py` line 41 (and `topology.flow_incidence` lines 24-25):
`[(u,v) for u in range(N) for v in range(N) if u != v]`. -/
def odPairs (N : ℕ) : List (ℕ × ℕ) :=
  (List.range N).flatMap fun u =>
    ((List.range N).filter fun v => decide (u ≠ v)).map fun v => (u, v)

/-- Hop counts `len(nx.shortest_path(G,u,v)) - 1` for a list of OD pairs, in
order; an unreachable pair raises (uncaught in the mask-building loop). -/
def odHopsGo (net : Net) : List (ℕ × ℕ) → Except Err (List ℕ)
  | [] => .ok []
  | uv :: rest =>
    match net.path uv.1 uv.2 with
    | none => .error .noPath
    | some p =>
      match odHopsGo net rest with
      | .error e => .error e
      | .ok hs => .ok ((p.length - 1) :: hs)

/-- Hop counts for all ordered pairs of distinct nodes. -/
def odHops (net : Net) : Except Err (List ℕ) :=
  odHopsGo net (odPairs net.N)

/-- `sim.py` lines 44-48: `H = np.zeros((P, F+1))`, then `H[idx, 1:] = 1` for
every pair whose hop count exceeds `hopmax`.  Row `i`, column `c`. -/
def buildH (hops : List ℕ) (F hopmax : ℕ) : ℕ → ℕ → ℕ :=
  fun i c => if 1 ≤ c ∧ c ≤ F ∧ hopmax < hops.getD i 0 then 1 else 0

/-- `topology.py` `flow_incidence(G, F)`: the OD-pair list (over the node
identifiers `0..N-1` that `build_grid` assigns) together with
`H = np.zeros((P, F+1))` — returned with no entry ever set. -/
def flow_incidence (N F : ℕ) : List (ℕ × ℕ) × (ℕ → ℕ → ℕ) :=
  (odPairs N, fun _ _ => 0)

/-! ## Scheduler (`scheduler.py`) -/

/-- State of `HopAwareScheduler`.  `H` is the `P × (F+1)` incidence matrix
(promoted to float in all numpy expressions), `pq` the weight vector of length
`F+1`, `lamdual` the dual vector of length `P`. -/
structure Sched where
  F : ℕ
  P : ℕ
  H : ℕ → ℕ → ℝ
  mu : ℝ
  gamma : ℝ
  pq : ℕ → ℝ
  lamdual : ℕ → ℝ
  t : ℕ
  G_U : ℝ
  G_phi : ℝ

/-- L2 norm of row `i` of `H` (a row has `F+1` columns):
`np.linalg.norm(H, axis=1)`. -/
noncomputable def rowNorm (H : ℕ → ℕ → ℝ) (F : ℕ) (i : ℕ) : ℝ :=
  Real.sqrt (∑ c ∈ Finset.range (F + 1), H i c ^ 2)

/-- `np.max(np.linalg.norm(H, axis=1))` over the `P` rows.  Row norms are
nonnegative, so for `P ≥ 1` the fold with base `0` is exactly the maximum
(`np.max` raises on `P = 0`, which the caller checks). -/
noncomputable def maxRowNorm (H : ℕ → ℕ → ℝ) (P F : ℕ) : ℝ :=
  ((List.range P).map (rowNorm H F)).foldr max 0

/-- `HopAwareScheduler.__init__`: uniform `pq`, zero duals, `t = 0`,
`G_U = mu`, `G_phi = 2 * max row norm of H`. -/
noncomputable def mkSched (F P : ℕ) (H : ℕ → ℕ → ℝ) (mu gamma : ℝ) : Sched :=
  { F := F, P := P, H := H, mu := mu, gamma := gamma,
    pq := fun _ => 1 / (F + 1),
    lamdual := fun _ => 0,
    t := 0,
    G_U := mu,
    G_phi := 2 * maxRowNorm H P F }

/-- `scheduler.py` `softmax(z)` on an array of length `n`:
`z - max(z)`, exponentiate, normalize.  (`n ≥ 1` at every call site.) -/
noncomputable def softmax (z : ℕ → ℝ) (n : ℕ) : ℕ → ℝ :=
  let M := ((List.range n).map z).foldr max (z 0)
  let s := ∑ j ∈ Finset.range n, Real.exp (z j - M)
  fun i => Real.exp (z i - M) / s

/-- The step size computed at the top of `HopAwareScheduler.step` — the
counter has already been incremented there, so it reads `s.t + 1`:
`eta = (G_U + gamma*G_phi)**-1 * sqrt(log(F+1)/t)`. -/
noncomputable def stepEta (s : Sched) : ℝ :=
  (s.G_U + s.gamma * s.G_phi)⁻¹ * Real.sqrt (Real.log (s.F + 1) / (s.t + 1))

/-- The utility subgradient `grad_U` of `step`: the loop
`for f in range(1, F+1): grad_U[f] = mu if pq[f]*mu < lam_vec[f-1] else 0`
(entry `0` stays `0`). -/
noncomputable def gradU (s : Sched) (lam : ℕ → ℝ) : ℕ → ℝ :=
  fun f => if 1 ≤ f ∧ f ≤ s.F ∧ s.pq f * s.mu < lam (f - 1) then s.mu else 0

/-- `self.H @ self.pq` (length `P`). -/
noncomputable def Hpq (s : Sched) : ℕ → ℝ :=
  fun p => ∑ c ∈ Finset.range (s.F + 1), s.H p c * s.pq c

/-- `grad_phi = 2 * self.H.T @ (self.H @ self.pq)` (length `F+1`). -/
noncomputable def gradPhi (s : Sched) : ℕ → ℝ :=
  fun c => 2 * ∑ p ∈ Finset.range s.P, s.H p c * Hpq s p

/-- `g = -grad_U + self.H.T @ self.lamdual + self.gamma * grad_phi`. -/
noncomputable def stepG (s : Sched) (lam : ℕ → ℝ) : ℕ → ℝ :=
  fun c => -gradU s lam c + (∑ p ∈ Finset.range s.P, s.H p c * s.lamdual p) +
    s.gamma * gradPhi s c

/-- `HopAwareScheduler.step(lam_vec)`: one mirror-descent / dual-ascent step:
`t += 1`; `eta` as in `stepEta`;
`pq = softmax(log(pq + 1e-20) - eta*g)`;
`lamdual = max(0, lamdual + eta*(H @ pq))` with the *new* `pq`.
`lam` models `lam_vec` (read at indices `0..F-1` only; the run wraps the call
with the corresponding index-range check). -/
noncomputable def Sched.step (s : Sched) (lam : ℕ → ℝ) : Sched :=
  let pq' := softmax
    (fun c => Real.log (s.pq c + 1 / 10 ^ 20) - stepEta s * stepG s lam c) (s.F + 1)
  { s with
    pq := pq'
    lamdual := fun p =>
      max 0 (s.lamdual p + stepEta s * ∑ c ∈ Finset.range (s.F + 1), s.H p c * pq' c)
    t := s.t + 1 }

/-- A sequence of `step` calls with the given load vectors, oldest first. -/
noncomputable def stepsList (s : Sched) (ls : List (ℕ → ℝ)) : Sched :=
  ls.foldl Sched.step s

/-! ## Node queueing model (`sim.py` `Node`) -/

/-- Per-node queue array: class index to FIFO list (head = front of the deque). -/
abbrev NodeQ := ℕ → List Packet

/-- All nodes' queues: node index to queue array. -/
abbrev Queues := ℕ → ℕ → List Packet

/-- `Node.enqueue`: append a packet at the back of queue `c` of node `n`. -/
def enqueue (qs : Queues) (n c : ℕ) (p : Packet) : Queues :=
  fun m d => if m = n ∧ d = c then qs m d ++ [p] else qs m d

/-- Remove the front packet of queue `c` (`popleft`). -/
def dequeue (q : NodeQ) (c : ℕ) : NodeQ :=
  fun d => if d = c then (q d).tail else q d

/-- The fallback scan `for f in range(F+1): if self.queues[f]: ...` starting at
index `i` with `fuel` indices left to inspect. -/
def firstNonempty (q : NodeQ) : ℕ → ℕ → Option ℕ
  | _, 0 => none
  | i, fuel + 1 => if q i ≠ [] then some i else firstNonempty q (i + 1) fuel

/-- `Node.pop_by_policy(weights)`: one categorical draw
`np.random.choice(F+1, p=weights)` (modelled as one stream draw reduced into
the support `0..F`; every `softmax` weight is positive so the support is full),
then the head of the drawn class if nonempty, else the head of the first
nonempty class in index order, else no packet.  The source's `while True` body
returns on every control path, so its single iteration is embedded directly.
Returns the result, the updated queue array, and the advanced RNG. -/
def pop_by_policy (q : NodeQ) (F : ℕ) (g : Gen) :
    Option (ℕ × Packet) × NodeQ × Gen :=
  let r := (g.next).1
  let g' := (g.next).2
  let cls := r % (F + 1)
  match q cls with
  | p :: _ => (some (cls, p), dequeue q cls, g')
  | [] =>
    match firstNonempty q 0 (F + 1) with
    | some f => (some (f, (q f).headI), dequeue q f, g')
    | none => (none, q, g')

/-- Modelled from the spec (§4.4 `pop_by_policy`), for comparison with the
code: a single draw `cls`; if that class's queue is nonempty return its head,
otherwise the head of the least-index nonempty queue below `F+1`, otherwise no
packet. -/
def popSpec (q : NodeQ) (F : ℕ) (cls : ℕ) : Option (ℕ × Packet) :=
  if _h0 : q cls ≠ [] then some (cls, (q cls).headI)
  else if h : ∃ f, f < F + 1 ∧ q f ≠ [] then some (Nat.find h, (q (Nat.find h)).headI)
  else none

/-! ## Simulation engine (`sim.py` `run`) -/

/-- The core inputs of `run` (the topology shape lives in `Net`, the seed in
`Gen`; see `Gen.ofSeed`). -/
structure Config where
  F : ℕ
  hopmax : ℕ
  S : ℕ
  frames : ℕ
  lam : List ℚ
deriving DecidableEq

/-- One per-frame metrics record, as appended to `results`. -/
structure FrameRec where
  frame : ℕ
  delivered : ℕ
  dropped : ℕ
  pdr : ℚ
  latency : ℚ
deriving DecidableEq

/-- Whole-simulation state between frames. -/
structure SimState where
  nodes : Queues
  gen : Gen
  sch : Sched
  recs : List FrameRec
  time : ℕ

/-- `run` up to the frame loop: OD pairs, hop counts, feasibility mask `H`
(an unreachable pair raises), `HopAwareScheduler(F, H, mu=S)` — whose
constructor takes `np.max` of an empty array and raises when `P = 0` — and
the `N` empty nodes.  `globaltime = 0`, no records yet. -/
noncomputable def setup (cfg : Config) (net : Net) (g : Gen) : Except Err SimState :=
  match odHops net with
  | .error e => .error e
  | .ok hops =>
    let P := (odPairs net.N).length
    if P = 0 then .error .emptyInit
    else
      .ok { nodes := fun _ _ => [],
            gen := g,
            sch := mkSched cfg.F P
              (fun i c => ((buildH hops cfg.F cfg.hopmax i c : ℕ) : ℝ)) (cfg.S : ℝ) 1,
            recs := [],
            time := 0 }

/-- The inner unit loop of the arrival phase at node `n`, class `f`:
`for _ in range(count)`, each unit drawing `dst = np.random.randint(0, N-1)`
(which raises for `N ≤ 1`), shifting `dst += 1` when `dst >= n`, and enqueuing
`Packet(dst, f, global_time)` at the origin — `queues[f]` raises when
`f > F`. -/
def arrivalUnits (N F n f birth : ℕ) :
    ℕ → Queues → Gen → Except Err (Queues × Gen)
  | 0, qs, g => .ok (qs, g)
  | count + 1, qs, g =>
    if N ≤ 1 then .error .dstRange
    else
      let r := (g.next).1
      let g' := (g.next).2
      let d0 := r % (N - 1)
      let dst := if n ≤ d0 then d0 + 1 else d0
      if f ≤ F then
        arrivalUnits N F n f birth count (enqueue qs n f ⟨dst, f, 0, birth⟩) g'
      else .error .clsIndex

/-- `for f, count in enumerate(arrivals, 1)` at node `n`: classes start at
`f0 = 1`. -/
def arrivalClasses (N F n birth : ℕ) :
    ℕ → List ℕ → Queues → Gen → Except Err (Queues × Gen)
  | _, [], qs, g => .ok (qs, g)
  | f, count :: rest, qs, g =>
    match arrivalUnits N F n f birth count qs g with
    | .error e => .error e
    | .ok (qs', g') => arrivalClasses N F n birth (f + 1) rest qs' g'

/-- `for n in range(N)`: every node receives arrivals from the same `counts`
vector drawn once at the top of the frame. -/
def arrivalNodes (N F birth : ℕ) (counts : List ℕ) :
    List ℕ → Queues → Gen → Except Err (Queues × Gen)
  | [], qs, g => .ok (qs, g)
  | n :: ns, qs, g =>
    match arrivalClasses N F n birth 1 counts qs g with
    | .error e => .error e
    | .ok (qs', g') => arrivalNodes N F birth counts ns qs' g'

/-- The arrival phase of one frame: a single `poisson_arrivals(lam)` call,
then the per-node enqueue loops. -/
def arrivalPhase (cfg : Config) (net : Net) (birth : ℕ) (qs : Queues) (g : Gen) :
    Except Err (Queues × Gen) :=
  let (counts, g1) := poisson_arrivals g cfg.lam
  arrivalNodes net.N cfg.F birth counts (List.range net.N) qs g1

/-- Running totals of one frame's service phase. -/
structure SvcState where
  qs : Queues
  gen : Gen
  delivered : ℕ
  dropped : ℕ
  lats : List ℤ

/-- One node's turn in a service slot.  Pops by policy; `None` means skip.
Then: drop when `hop+1 > hopmax`; recompute the shortest path from the
*current* node (`NetworkXNoPath` is caught → drop); drop when `hop+1` is
outside the path; take `next_hop = path[hop+1]`, increment the hop count;
deliver (recording latency `global_time + slot - birth + 1`) when `next_hop`
is the destination, else forward — `nodes[next_hop]` with an out-of-range
index raises `IndexError`, which the `except` clause also catches → drop. -/
def serviceNode (cfg : Config) (net : Net) (time slot n : ℕ) (st : SvcState) :
    SvcState :=
  match pop_by_policy (st.qs n) cfg.F st.gen with
  | (none, _, g') => { st with gen := g' }
  | (some (cls, pkt), q', g') =>
    let qs' : Queues := fun m => if m = n then q' else st.qs m
    if cfg.hopmax < pkt.hop + 1 then
      { st with qs := qs', gen := g', dropped := st.dropped + 1 }
    else
      match net.path n pkt.dst with
      | none => { st with qs := qs', gen := g', dropped := st.dropped + 1 }
      | some path =>
        if path.length ≤ pkt.hop + 1 then
          { st with qs := qs', gen := g', dropped := st.dropped + 1 }
        else
          let nh := path.getD (pkt.hop + 1) 0
          let pkt' : Packet := { pkt with hop := pkt.hop + 1 }
          if nh = pkt.dst then
            { st with
              qs := qs'
              gen := g'
              delivered := st.delivered + 1
              lats := st.lats ++ [(time : ℤ) + (slot : ℤ) - (pkt.birth : ℤ) + 1] }
          else if nh < net.N then
            { st with qs := enqueue qs' nh cls pkt', gen := g' }
          else
            { st with qs := qs', gen := g', dropped := st.dropped + 1 }

/-- `for n in range(N)` within one slot. -/
def serviceNodesGo (cfg : Config) (net : Net) (time slot : ℕ) :
    List ℕ → SvcState → SvcState
  | [], st => st
  | n :: ns, st => serviceNodesGo cfg net time slot ns (serviceNode cfg net time slot n st)

/-- `for slot in range(S)`. -/
def serviceSlotsGo (cfg : Config) (net : Net) (time : ℕ) :
    List ℕ → SvcState → SvcState
  | [], st => st
  | slot :: rest, st =>
    serviceSlotsGo cfg net time rest
      (serviceNodesGo cfg net time slot (List.range net.N) st)

/-- One frame: arrival phase, one scheduler step (`lam_vec` is read at indices
`0..F-1`, so the numpy indexing raises exactly when `lam` is shorter than `F`
— checked here at the call boundary), `S` service slots, then the metrics
record (`pdr = delivered / max(delivered+dropped, 1)`, mean latency or `0`)
and `global_time += S`. -/
noncomputable def frameStep (cfg : Config) (net : Net) (st : SimState) :
    Except Err SimState :=
  match arrivalPhase cfg net st.time st.nodes st.gen with
  | .error e => .error e
  | .ok (qs1, g1) =>
    if cfg.F ≤ cfg.lam.length then
      let sch' := st.sch.step fun i => ((cfg.lam.getD i 0 : ℚ) : ℝ)
      let sv := serviceSlotsGo cfg net st.time (List.range cfg.S)
        { qs := qs1, gen := g1, delivered := 0, dropped := 0, lats := [] }
      let fr : FrameRec :=
        { frame := st.recs.length,
          delivered := sv.delivered,
          dropped := sv.dropped,
          pdr := (sv.delivered : ℚ) / ((max (sv.delivered + sv.dropped) 1 : ℕ) : ℚ),
          latency := if sv.lats = [] then 0 else (sv.lats.sum : ℚ) / (sv.lats.length : ℚ) }
      .ok { nodes := sv.qs, gen := sv.gen, sch := sch',
            recs := st.recs ++ [fr], time := st.time + cfg.S }
    else .error .lamIndex

/-- `for frame in range(frames)`. -/
noncomputable def iterateFrames (cfg : Config) (net : Net) :
    ℕ → SimState → Except Err SimState
  | 0, st => .ok st
  | k + 1, st =>
    match frameStep cfg net st with
    | .error e => .error e
    | .ok st' => iterateFrames cfg net k st'

/-- `sim.py` `run(args)`: seed the RNG (the seeded RNG is the `Gen` argument),
build the grid and the feasibility mask, construct the scheduler, simulate
`frames` frames, and return the per-frame records. -/
noncomputable def run (cfg : Config) (net : Net) (g : Gen) :
    Except Err (List FrameRec) :=
  match setup cfg net g with
  | .error e => .error e
  | .ok st0 =>
    match iterateFrames cfg net cfg.frames st0 with
    | .error e => .error e
    | .ok st => .ok st.recs

/-! ## Concrete instances used by witnesses and counterexamples -/

/-- The 1×2 grid (`build_grid(1, 2)`): two adjacent nodes, with its true
networkx shortest paths. -/
def net2 : Net :=
  { N := 2,
    path := fun u v =>
      if u = v then some [u]
      else if u < 2 ∧ v < 2 then some [u, v] else none }

/-- A generator whose stream is constantly `c`. -/
def genC (c : ℕ) : Gen := ⟨fun _ => c, 0, 0⟩

/-! ## OD-pair enumeration -/

theorem filter_ne_length (N u : ℕ) (hu : u < N) :
    ((List.range N).filter fun v => decide (u ≠ v)).length = N - 1 := by
  induction N with
  | zero => omega
  | succ n ih =>
    rw [List.range_succ, List.filter_append, List.length_append]
    rcases Nat.lt_or_ge u n with h | h
    · rw [ih h]
      have hne : u ≠ n := by omega
      have h1 : (List.filter (fun v => decide (u ≠ v)) [n]).length = 1 := by
        simp [List.filter_cons, hne]
      omega
    · have hun : u = n := by omega
      subst hun
      have h1 : (List.filter (fun v => decide (u ≠ v)) [u]).length = 0 := by
        simp [List.filter_cons]
      have h2 : List.filter (fun v => decide (u ≠ v)) (List.range u) = List.range u := by
        apply List.filter_eq_self.mpr
        intro a ha
        simp only [List.mem_range] at ha
        simp
        omega
      rw [h1, h2]
      simp

theorem odPairs_length (N : ℕ) : (odPairs N).length = N * (N - 1) := by
  unfold odPairs
  rw [List.length_flatMap]
  have hmap : (List.range N).map
      (fun u => (((List.range N).filter fun v => decide (u ≠ v)).map fun v => (u, v)).length)
      = (List.range N).map fun _ => N - 1 := by
    apply List.map_congr_left
    intro u hu
    rw [List.length_map, filter_ne_length N u (List.mem_range.mp hu)]
  simp only [Function.comp_def]
  rw [hmap, List.map_const', List.sum_replicate, List.length_range, smul_eq_mul]

theorem odPairs_mem (N u v : ℕ) : (u, v) ∈ odPairs N ↔ u < N ∧ v < N ∧ u ≠ v := by
  unfold odPairs
  simp only [List.mem_flatMap, List.mem_map, List.mem_filter, List.mem_range,
    decide_eq_true_eq, Prod.mk.injEq]
  constructor
  · rintro ⟨a, ha, b, ⟨hb, hab⟩, hau, hbv⟩
    subst hau; subst hbv
    exact ⟨ha, hb, hab⟩
  · rintro ⟨hu, hv, huv⟩
    exact ⟨u, hu, v, ⟨hv, huv⟩, rfl, rfl⟩

theorem odPairs_pos_iff (N : ℕ) : (odPairs N).length ≠ 0 ↔ 2 ≤ N := by
  rw [odPairs_length]
  constructor
  · intro h; by_contra hN; push_neg at hN
    interval_cases N <;> simp_all
  · intro h
    have h1 : 1 ≤ N - 1 := by omega
    have := Nat.mul_le_mul (by omega : 2 ≤ N) h1
    omega

/-! ## Scheduler lemmas -/

theorem step_fields (s : Sched) (lam : ℕ → ℝ) :
    (s.step lam).t = s.t + 1 ∧ (s.step lam).F = s.F ∧ (s.step lam).P = s.P ∧
    (s.step lam).H = s.H ∧ (s.step lam).mu = s.mu ∧ (s.step lam).gamma = s.gamma ∧
    (s.step lam).G_U = s.G_U ∧ (s.step lam).G_phi = s.G_phi :=
  ⟨rfl, rfl, rfl, rfl, rfl, rfl, rfl, rfl⟩

theorem stepsList_fields (ls : List (ℕ → ℝ)) (s : Sched) :
    (stepsList s ls).t = s.t + ls.length ∧ (stepsList s ls).F = s.F ∧
    (stepsList s ls).P = s.P ∧ (stepsList s ls).H = s.H ∧
    (stepsList s ls).mu = s.mu ∧ (stepsList s ls).gamma = s.gamma ∧
    (stepsList s ls).G_U = s.G_U ∧ (stepsList s ls).G_phi = s.G_phi := by
  induction ls generalizing s with
  | nil => exact ⟨rfl, rfl, rfl, rfl, rfl, rfl, rfl, rfl⟩
  | cons l rest ih =>
    obtain ⟨h1, h2, h3, h4, h5, h6, h7, h8⟩ := ih (s.step l)
    obtain ⟨t1, t2, t3, t4, t5, t6, t7, t8⟩ := step_fields s l
    simp only [stepsList, List.foldl_cons] at h1 h2 h3 h4 h5 h6 h7 h8 ⊢
    refine ⟨?_, ?_, ?_, ?_, ?_, ?_, ?_, ?_⟩
    · rw [h1, t1, List.length_cons]; omega
    · rw [h2, t2]
    · rw [h3, t3]
    · rw [h4, t4]
    · rw [h5, t5]
    · rw [h6, t6]
    · rw [h7, t7]
    · rw [h8, t8]

theorem softmax_nonneg (z : ℕ → ℝ) (n i : ℕ) : 0 ≤ softmax z n i := by
  unfold softmax
  exact div_nonneg (Real.exp_pos _).le (Finset.sum_nonneg fun j _ => (Real.exp_pos _).le)

theorem softmax_sum (z : ℕ → ℝ) (n : ℕ) (hn : 1 ≤ n) :
    ∑ i ∈ Finset.range n, softmax z n i = 1 := by
  unfold softmax
  rw [← Finset.sum_div]
  refine div_self (ne_of_gt ?_)
  exact Finset.sum_pos (fun j _ => Real.exp_pos _) ⟨0, Finset.mem_range.mpr (by omega)⟩

theorem le_foldr_max {α : Type} [LinearOrder α] {l : List α} {a : α} (b : α)
    (ha : a ∈ l) : a ≤ l.foldr max b := by
  induction l with
  | nil => cases ha
  | cons x xs ih =>
    rcases List.mem_cons.mp ha with h | h
    · subst h; exact le_max_left _ _
    · exact le_trans (ih h) (le_max_right _ _)

theorem foldr_max_mem {α : Type} [LinearOrder α] (l : List α) (b : α) :
    l.foldr max b = b ∨ l.foldr max b ∈ l := by
  induction l with
  | nil => left; rfl
  | cons x xs ih =>
    rcases max_choice x (xs.foldr max b) with h | h
    · right; rw [List.foldr_cons, h]; exact List.mem_cons_self _ _
    · rcases ih with h' | h'
      · left; rw [List.foldr_cons, h, h']
      · right; rw [List.foldr_cons, h]; exact List.mem_cons_of_mem _ h'

theorem rowNorm_nonneg (H : ℕ → ℕ → ℝ) (F i : ℕ) : 0 ≤ rowNorm H F i :=
  Real.sqrt_nonneg _

theorem rowNorm_le_maxRowNorm (H : ℕ → ℕ → ℝ) (P F i : ℕ) (hi : i < P) :
    rowNorm H F i ≤ maxRowNorm H P F :=
  le_foldr_max 0 (List.mem_map_of_mem _ (List.mem_range.mpr hi))

theorem maxRowNorm_attained (H : ℕ → ℕ → ℝ) (P F : ℕ) (hP : P ≠ 0) :
    ∃ i, i < P ∧ rowNorm H F i = maxRowNorm H P F := by
  rcases foldr_max_mem ((List.range P).map (rowNorm H F)) 0 with h | h
  · refine ⟨0, Nat.pos_of_ne_zero hP, le_antisymm ?_ ?_⟩
    · exact rowNorm_le_maxRowNorm H P F 0 (Nat.pos_of_ne_zero hP)
    · rw [maxRowNorm, h]; exact rowNorm_nonneg H F 0
  · obtain ⟨i, hi, heq⟩ := List.mem_map.mp h
    exact ⟨i, List.mem_range.mp hi, heq⟩

/-- C4: after every call to `HopAwareScheduler.step` — i.e. after any nonempty
sequence of steps from a freshly constructed scheduler, so for every step
count `t ≥ 1` — the weight vector `pq` is a valid probability distribution:
every entry is `≥ 0` and the `F+1` entries sum to `1`. -/
theorem scheduler_pq_distribution (F P : ℕ) (H : ℕ → ℕ → ℝ) (mu gamma : ℝ)
    (ls : List (ℕ → ℝ)) (hls : ls ≠ []) :
    (∀ i, 0 ≤ (stepsList (mkSched F P H mu gamma) ls).pq i) ∧
    ∑ i ∈ Finset.range (F + 1), (stepsList (mkSched F P H mu gamma) ls).pq i = 1 := by
  rcases List.eq_nil_or_concat ls with h | ⟨L, y, h⟩
  · exact absurd h hls
  · subst h
    rw [stepsList, List.concat_eq_append, List.foldl_append, List.foldl_cons,
      List.foldl_nil]
    have hF : (List.foldl Sched.step (mkSched F P H mu gamma) L).F = F := by
      have h2 := (stepsList_fields L (mkSched F P H mu gamma)).2.1
      simpa [stepsList] using h2
    have hpq : ((List.foldl Sched.step (mkSched F P H mu gamma) L).step y).pq =
        softmax
          (fun c => Real.log ((List.foldl Sched.step (mkSched F P H mu gamma) L).pq c
              + 1 / 10 ^ 20) -
            stepEta (List.foldl Sched.step (mkSched F P H mu gamma) L) *
              stepG (List.foldl Sched.step (mkSched F P H mu gamma) L) y c)
          ((List.foldl Sched.step (mkSched F P H mu gamma) L).F + 1) := rfl
    rw [hpq, hF]
    exact ⟨fun i => softmax_nonneg _ _ i, softmax_sum _ _ (by omega)⟩

/-- Witness for C4 at a concrete scheduler and one step. -/
theorem scheduler_pq_distribution_w :
    (∀ i, 0 ≤ (stepsList (mkSched 1 1 (fun _ _ => 1) 1 1) [fun _ => 0]).pq i) ∧
    ∑ i ∈ Finset.range 2, (stepsList (mkSched 1 1 (fun _ _ => 1) 1 1) [fun _ => 0]).pq i = 1 :=
  scheduler_pq_distribution 1 1 (fun _ _ => 1) 1 1 [fun _ => 0] (List.cons_ne_nil _ _)

/-- C7: after `n` calls the step counter is `n` (so it is `n + 1 ≥ 1` during
the next call: it starts at `1` on the first step), the bounds `G_U = mu` and
`G_phi = 2 · max` row L2 norm of the incidence structure (the fold in
`maxRowNorm` is the genuine maximum: it bounds every row norm and is attained)
are those computed at construction, unchanged by any number of steps, and the
step size used by the next call is
`(G_U + gamma·G_phi)⁻¹ · sqrt(ln(F+1)/t)` at `t = n + 1`. -/
theorem scheduler_eta_formula (F P : ℕ) (H : ℕ → ℕ → ℝ) (mu gamma : ℝ)
    (ls : List (ℕ → ℝ)) :
    (stepsList (mkSched F P H mu gamma) ls).t = ls.length ∧
    1 ≤ (stepsList (mkSched F P H mu gamma) ls).t + 1 ∧
    (stepsList (mkSched F P H mu gamma) ls).G_U = mu ∧
    (stepsList (mkSched F P H mu gamma) ls).G_phi = 2 * maxRowNorm H P F ∧
    (∀ i, i < P → rowNorm H F i ≤ maxRowNorm H P F) ∧
    (P ≠ 0 → ∃ i, i < P ∧ rowNorm H F i = maxRowNorm H P F) ∧
    stepEta (stepsList (mkSched F P H mu gamma) ls) =
      (mu + gamma * (2 * maxRowNorm H P F))⁻¹ *
        Real.sqrt (Real.log (F + 1) / (ls.length + 1)) := by
  obtain ⟨h1, h2, h3, h4, h5, h6, h7, h8⟩ := stepsList_fields ls (mkSched F P H mu gamma)
  have hm : (mkSched F P H mu gamma).t = 0 := rfl
  have ht : (stepsList (mkSched F P H mu gamma) ls).t = ls.length := by
    rw [h1, hm, Nat.zero_add]
  have hGU : (mkSched F P H mu gamma).G_U = mu := rfl
  have hGphi : (mkSched F P H mu gamma).G_phi = 2 * maxRowNorm H P F := rfl
  have hgam : (mkSched F P H mu gamma).gamma = gamma := rfl
  have hFm : (mkSched F P H mu gamma).F = F := rfl
  refine ⟨ht, by omega, by rw [h7, hGU], by rw [h8, hGphi],
    fun i hi => rowNorm_le_maxRowNorm H P F i hi,
    maxRowNorm_attained H P F, ?_⟩
  unfold stepEta
  rw [h7, hGU, h8, hGphi, h6, hgam, h2, hFm, ht]

/-! ## Feasibility-mask lemmas -/

theorem odHopsGo_spec (net : Net) :
    ∀ (l : List (ℕ × ℕ)) (hs : List ℕ), odHopsGo net l = .ok hs →
      hs.length = l.length ∧
      ∀ i, i < l.length →
        ∃ pth, net.path (l.getD i (0, 0)).1 (l.getD i (0, 0)).2 = some pth ∧
          hs.getD i 0 = pth.length - 1 := by
  intro l
  induction l with
  | nil =>
    intro hs h
    injection h with h
    subst h
    exact ⟨rfl, fun i hi => by simp at hi⟩
  | cons uv rest ih =>
    intro hs h
    unfold odHopsGo at h
    cases hp : net.path uv.1 uv.2 with
    | none => rw [hp] at h; simp at h
    | some p =>
      rw [hp] at h
      cases hr : odHopsGo net rest with
      | error e => rw [hr] at h; simp at h
      | ok hs' =>
        rw [hr] at h
        injection h with h
        subst h
        obtain ⟨hlen, hspec⟩ := ih hs' hr
        refine ⟨by simp [hlen], ?_⟩
        intro i hi
        cases i with
        | zero => exact ⟨p, hp, rfl⟩
        | succ j =>
          simp only [List.getD_cons_succ]
          exact hspec j (by simpa using hi)

theorem odHopsGo_ok (net : Net) :
    ∀ l : List (ℕ × ℕ), (∀ uv ∈ l, (net.path uv.1 uv.2).isSome) →
      ∃ hs, odHopsGo net l = .ok hs := by
  intro l
  induction l with
  | nil => exact fun _ => ⟨[], rfl⟩
  | cons uv rest ih =>
    intro hall
    obtain ⟨p, hp⟩ := Option.isSome_iff_exists.mp (hall uv (List.mem_cons_self _ _))
    obtain ⟨hs, hhs⟩ := ih fun x hx => hall x (List.mem_cons_of_mem _ hx)
    refine ⟨(p.length - 1) :: hs, ?_⟩
    unfold odHopsGo
    rw [hp, hhs]

theorem odHops_ok (net : Net)
    (hpath : ∀ u v, u < net.N → v < net.N → u ≠ v → (net.path u v).isSome) :
    ∃ hs, odHops net = .ok hs := by
  apply odHopsGo_ok
  intro uv huv
  obtain ⟨u, v⟩ := uv
  obtain ⟨h1, h2, h3⟩ := (odPairs_mem net.N u v).mp huv
  exact hpath u v h1 h2 h3

/-! ## Setup and frame-iteration lemmas -/

theorem setup_ok (cfg : Config) (net : Net) (g : Gen)
    (hN : 2 ≤ net.N)
    (hpath : ∀ u v, u < net.N → v < net.N → u ≠ v → (net.path u v).isSome) :
    ∃ st0, setup cfg net g = .ok st0 ∧ st0.nodes = (fun _ _ => []) ∧
      st0.gen = g ∧ st0.recs = [] ∧ st0.time = 0 := by
  obtain ⟨hops, hh⟩ := odHops_ok net hpath
  unfold setup
  rw [hh]
  dsimp only
  rw [if_neg ((odPairs_pos_iff net.N).mpr hN)]
  exact ⟨_, rfl, rfl, rfl, rfl, rfl⟩

theorem setup_sch_H (cfg : Config) (net : Net) (g : Gen) (st0 : SimState)
    (hops : List ℕ) (h : setup cfg net g = .ok st0) (hh : odHops net = .ok hops) :
    st0.sch.H = fun p c => ((buildH hops cfg.F cfg.hopmax p c : ℕ) : ℝ) := by
  unfold setup at h
  rw [hh] at h
  dsimp only at h
  by_cases hP : (odPairs net.N).length = 0
  · rw [if_pos hP] at h; simp at h
  · rw [if_neg hP] at h
    injection h with h
    subst h
    rfl

theorem frameStep_sch_H (cfg : Config) (net : Net) (st st' : SimState)
    (h : frameStep cfg net st = .ok st') : st'.sch.H = st.sch.H := by
  unfold frameStep at h
  cases ha : arrivalPhase cfg net st.time st.nodes st.gen with
  | error e => rw [ha] at h; simp at h
  | ok qg =>
    obtain ⟨qs1, g1⟩ := qg
    rw [ha] at h
    dsimp only at h
    by_cases hg : cfg.F ≤ cfg.lam.length
    · rw [if_pos hg] at h
      injection h with h
      subst h
      exact (step_fields st.sch _).2.2.2.1
    · rw [if_neg hg] at h
      simp at h

theorem iterateFrames_sch_H (cfg : Config) (net : Net) :
    ∀ (k : ℕ) (st st' : SimState), iterateFrames cfg net k st = .ok st' →
      st'.sch.H = st.sch.H := by
  intro k
  induction k with
  | zero =>
    intro st st' h
    injection h with h
    subst h
    rfl
  | succ n ih =>
    intro st st' h
    unfold iterateFrames at h
    cases hf : frameStep cfg net st with
    | error e => rw [hf] at h; simp at h
    | ok st1 =>
      rw [hf] at h
      rw [ih st1 st' h, frameStep_sch_H cfg net st st1 hf]

/-- C6: for every OD pair index `p` (with `hops` the list of shortest-path hop
counts `len(path) - 1` the mask builder computed, tied here to the external
shortest-path query) and every class `c ≤ F`, `H[p][c]` is `1` iff `c ≥ 1`
and the pair's hop count strictly exceeds the hop budget, and `0` otherwise —
in particular column `0` is all zeros; and `H` is fixed at initialization:
`step` never changes it, and across any number of frames of the run the
scheduler's `H` stays what `setup` built. -/
theorem feasibility_mask_spec :
    (∀ (net : Net) (F hopmax : ℕ) (hops : List ℕ), odHops net = .ok hops →
      ∀ p, p < (odPairs net.N).length →
        (∃ pth, net.path ((odPairs net.N).getD p (0, 0)).1
            ((odPairs net.N).getD p (0, 0)).2 = some pth ∧
            hops.getD p 0 = pth.length - 1) ∧
        (∀ c, c ≤ F →
          buildH hops F hopmax p c = if 1 ≤ c ∧ hopmax < hops.getD p 0 then 1 else 0) ∧
        buildH hops F hopmax p 0 = 0) ∧
    (∀ (s : Sched) (lam : ℕ → ℝ), (s.step lam).H = s.H) ∧
    (∀ (cfg : Config) (net : Net) (g : Gen) (k : ℕ) (st0 st : SimState),
      setup cfg net g = .ok st0 → iterateFrames cfg net k st0 = .ok st →
      st.sch.H = st0.sch.H) := by
  refine ⟨?_, fun s lam => (step_fields s lam).2.2.2.1,
    fun cfg net g k st0 st _ hit => iterateFrames_sch_H cfg net k st0 st hit⟩
  intro net F hopmax hops hh p hp
  obtain ⟨-, hspec⟩ := odHopsGo_spec net (odPairs net.N) hops hh
  refine ⟨hspec p hp, ?_, ?_⟩
  · intro c hc
    unfold buildH
    by_cases h1 : 1 ≤ c ∧ hopmax < hops.getD p 0
    · rw [if_pos ⟨h1.1, hc, h1.2⟩, if_pos h1]
    · rw [if_neg (fun hcon => h1 ⟨hcon.1, hcon.2.2⟩), if_neg h1]
  · unfold buildH
    simp

/-- Witness for C6: on the 1×2 grid with hop budget `0`, the pair `(0,1)` has
hop count `1 > 0`, so class `1` is marked infeasible. -/
theorem feasibility_mask_spec_w : buildH [1, 1] 1 0 0 1 = 1 := by
  have h := (feasibility_mask_spec.1 net2 1 0 [1, 1] rfl 0 (by decide)).2.1 1 le_rfl
  rw [h]
  decide

/-- C9: the simulation is a pure function of its parameters, topology and
seeded RNG: two runs with identical parameters and the same seed (under the
same external PRNG) produce identical per-frame record sequences. -/
theorem run_deterministic (cfg cfg' : Config) (net net' : Net)
    (prng : ℕ → ℕ → ℕ) (seed seed' : ℕ)
    (hc : cfg = cfg') (hn : net = net') (hs : seed = seed') :
    run cfg net (Gen.ofSeed prng seed) = run cfg' net' (Gen.ofSeed prng seed') := by
  subst hc
  subst hn
  subst hs
  rfl

/-- Witness for C9 at a concrete configuration and seed. -/
theorem run_deterministic_w :
    run ⟨1, 8, 1, 1, [0]⟩ net2 (Gen.ofSeed (fun _ _ => 0) 42) =
      run ⟨1, 8, 1, 1, [0]⟩ net2 (Gen.ofSeed (fun _ _ => 0) 42) :=
  run_deterministic _ _ _ _ _ _ _ rfl rfl rfl

/-- C10: `flow_incidence(G, F)` returns the ordered list of all `N·(N-1)`
ordered pairs of distinct nodes together with an incidence matrix that is
entirely zero — it never marks any (pair, class) combination infeasible, so it
differs from the Feasibility-Mask-Builder contract (`buildH`, which does mark
over-budget pairs: they disagree already on a two-node topology with an
over-budget pair); the mask the run actually hands to the scheduler is the one
`setup` builds with `buildH` inside the simulation engine. -/
theorem flow_incidence_zero :
    (∀ N F, (flow_incidence N F).1 = odPairs N) ∧
    (∀ N F, (flow_incidence N F).1.length = N * (N - 1)) ∧
    (∀ N F u v, (u, v) ∈ (flow_incidence N F).1 ↔ u < N ∧ v < N ∧ u ≠ v) ∧
    (∀ N F p c, (flow_incidence N F).2 p c = 0) ∧
    ((flow_incidence 2 1).2 0 1 ≠ buildH [2] 1 1 0 1) ∧
    (∀ (cfg : Config) (net : Net) (g : Gen) (st0 : SimState) (hops : List ℕ),
      setup cfg net g = .ok st0 → odHops net = .ok hops →
      st0.sch.H = fun p c => ((buildH hops cfg.F cfg.hopmax p c : ℕ) : ℝ)) := by
  refine ⟨fun N F => rfl, fun N F => odPairs_length N,
    fun N F u v => odPairs_mem N u v, fun N F p c => rfl, by decide,
    fun cfg net g st0 hops h hh => setup_sch_H cfg net g st0 hops h hh⟩

/-- Witness for C10: the run's scheduler mask on the 1×2 grid is `buildH` of
the hop counts `[1, 1]`. -/
theorem flow_incidence_zero_w :
    ∃ st0, setup ⟨1, 0, 1, 1, [0]⟩ net2 (genC 0) = .ok st0 ∧
      st0.sch.H = fun p c => ((buildH [1, 1] 1 0 p c : ℕ) : ℝ) := by
  refine ⟨_, rfl, ?_⟩
  exact flow_incidence_zero.2.2.2.2.2 ⟨1, 0, 1, 1, [0]⟩ net2 (genC 0) _ [1, 1] rfl rfl

/-! ## Queueing lemmas -/

theorem firstNonempty_none (q : NodeQ) :
    ∀ fuel i, firstNonempty q i fuel = none ↔ ∀ j, i ≤ j → j < i + fuel → q j = [] := by
  intro fuel
  induction fuel with
  | zero =>
    intro i
    constructor
    · intro _ j h1 h2; omega
    · intro _; rfl
  | succ n ih =>
    intro i
    simp only [firstNonempty]
    by_cases h : q i = []
    · rw [if_neg (not_not_intro h), ih (i + 1)]
      constructor
      · intro hall j h1 h2
        rcases Nat.eq_or_lt_of_le h1 with rfl | hlt
        · exact h
        · exact hall j hlt (by omega)
      · intro hall j h1 h2
        exact hall j (by omega) (by omega)
    · rw [if_pos h]
      constructor
      · intro hsome; simp at hsome
      · intro hall; exact absurd (hall i le_rfl (by omega)) h

theorem firstNonempty_some (q : NodeQ) :
    ∀ fuel i f, firstNonempty q i fuel = some f ↔
      (i ≤ f ∧ f < i + fuel ∧ q f ≠ [] ∧ ∀ j, i ≤ j → j < f → q j = []) := by
  intro fuel
  induction fuel with
  | zero =>
    intro i f
    constructor
    · intro h; simp [firstNonempty] at h
    · rintro ⟨h1, h2, -, -⟩; omega
  | succ n ih =>
    intro i f
    simp only [firstNonempty]
    by_cases h : q i = []
    · rw [if_neg (not_not_intro h), ih (i + 1) f]
      constructor
      · rintro ⟨h1, h2, h3, h4⟩
        refine ⟨by omega, by omega, h3, ?_⟩
        intro j hj1 hj2
        rcases Nat.eq_or_lt_of_le hj1 with rfl | hlt
        · exact h
        · exact h4 j hlt hj2
      · rintro ⟨h1, h2, h3, h4⟩
        have hif : i ≠ f := by rintro rfl; exact h3 h
        exact ⟨by omega, by omega, h3, fun j hj1 hj2 => h4 j (by omega) hj2⟩
    · rw [if_pos h]
      constructor
      · intro hs
        injection hs with hs
        subst hs
        exact ⟨le_rfl, by omega, h, fun j hj1 hj2 => by omega⟩
      · rintro ⟨h1, h2, h3, h4⟩
        by_cases hif : i = f
        · rw [hif]
        · exact absurd (h4 i le_rfl (by omega)) h

/-- C5: `pop_by_policy` makes exactly one categorical draw (the RNG cursor
advances by exactly one — it never draws a second sample, the `while True`
body returning on every path of its single iteration); its result is exactly
the spec's single-draw-with-deterministic-fallback `popSpec` — the head of the
drawn class if nonempty, else the head of the *least-index* nonempty class
(`Nat.find`), else no packet — and it removes precisely the head of the queue
the returned packet came from. -/
theorem pop_by_policy_eq_popSpec (q : NodeQ) (F : ℕ) (g : Gen) :
    pop_by_policy q F g =
      (popSpec q F (g.stream g.k % (F + 1)),
       (match popSpec q F (g.stream g.k % (F + 1)) with
        | some (c, _) => dequeue q c
        | none => q),
       { g with k := g.k + 1 }) := by
  unfold pop_by_policy Gen.next
  cases hq : q (g.stream g.k % (F + 1)) with
  | cons p rest =>
    have hps : popSpec q F (g.stream g.k % (F + 1)) = some (g.stream g.k % (F + 1), p) := by
      unfold popSpec
      rw [dif_pos (by rw [hq]; exact List.cons_ne_nil _ _)]
      rw [hq, List.headI_cons]
    simp only [hq, hps]
  | nil =>
    have hps0 : ¬ (q (g.stream g.k % (F + 1)) ≠ []) := not_not_intro hq
    cases hf : firstNonempty q 0 (F + 1) with
    | some f =>
      obtain ⟨-, hflt, hfne, hleast⟩ := (firstNonempty_some q (F + 1) 0 f).mp hf
      have hex : ∃ c, c < F + 1 ∧ q c ≠ [] := ⟨f, by omega, hfne⟩
      have hfind : Nat.find hex = f := by
        rw [Nat.find_eq_iff]
        exact ⟨⟨by omega, hfne⟩, fun n hn hcon => hcon.2 (hleast n (by omega) hn)⟩
      have hps : popSpec q F (g.stream g.k % (F + 1)) = some (f, (q f).headI) := by
        unfold popSpec
        rw [dif_neg hps0, dif_pos hex, hfind]
      simp only [hq, hf, hps]
    | none =>
      have hall := (firstNonempty_none q (F + 1) 0).mp hf
      have hps : popSpec q F (g.stream g.k % (F + 1)) = none := by
        unfold popSpec
        rw [dif_neg hps0, dif_neg]
        rintro ⟨c, hc, hcne⟩
        exact hcne (hall c (by omega) (by omega))
      simp only [hq, hf, hps]

/-! ## Arrival-phase lemmas -/

theorem poisCounts_length (stream : ℕ → ℕ) :
    ∀ (lam : List ℚ) (k : ℕ), (poisCounts stream k lam).length = lam.length := by
  intro lam
  induction lam with
  | nil => intro k; rfl
  | cons a rest ih => intro k; simp [poisCounts, ih]

theorem poisCounts_zero (stream : ℕ → ℕ) :
    ∀ (lam : List ℚ) (k : ℕ), (∀ a ∈ lam, a = 0) →
      ∀ j, (poisCounts stream k lam).getD j 0 = 0 := by
  intro lam
  induction lam with
  | nil => intro k _ j; simp [poisCounts]
  | cons a rest ih =>
    intro k hz j
    have ha : a = 0 := hz a (List.mem_cons_self _ _)
    cases j with
    | zero => simp [poisCounts, ha]
    | succ m =>
      simp only [poisCounts, List.getD_cons_succ]
      exact ih (k + 1) (fun x hx => hz x (List.mem_cons_of_mem _ hx)) m

theorem arrivalUnits_spec (N F n f birth : ℕ) (hN : 2 ≤ N) (hf : f ≤ F) :
    ∀ (count : ℕ) (qs : Queues) (g : Gen),
      ∃ qs' g', arrivalUnits N F n f birth count qs g = .ok (qs', g') ∧
        g'.pois = g.pois ∧
        (∀ m c, ¬(m = n ∧ c = f) → qs' m c = qs m c) ∧
        ∃ L : List Packet, qs' n f = qs n f ++ L ∧ L.length = count ∧
          ∀ p ∈ L, p.hop = 0 ∧ p.cls = f := by
  intro count
  induction count with
  | zero =>
    intro qs g
    exact ⟨qs, g, rfl, rfl, fun m c _ => rfl, [], by simp, rfl, by simp⟩
  | succ k ih =>
    intro qs g
    obtain ⟨qs', g', hrun, hpois, hother, L, happ, hlen, hprop⟩ :=
      ih (enqueue qs n f
        ⟨(if n ≤ (g.next).1 % (N - 1) then (g.next).1 % (N - 1) + 1
          else (g.next).1 % (N - 1)), f, 0, birth⟩) (g.next).2
    refine ⟨qs', g', ?_, ?_, ?_, ?_⟩
    · unfold arrivalUnits
      rw [if_neg (by omega : ¬ N ≤ 1), if_pos hf]
      exact hrun
    · rw [hpois]; rfl
    · intro m c hmc
      rw [hother m c hmc]
      unfold enqueue
      rw [if_neg hmc]
    · refine ⟨(⟨(if n ≤ (g.next).1 % (N - 1) then (g.next).1 % (N - 1) + 1
          else (g.next).1 % (N - 1)), f, 0, birth⟩ : Packet) :: L, ?_,
        by simp [hlen], ?_⟩
      · rw [happ]
        unfold enqueue
        rw [if_pos ⟨rfl, rfl⟩, List.append_assoc, List.singleton_append]
      · intro p hp
        rcases List.mem_cons.mp hp with rfl | hp
        · exact ⟨rfl, rfl⟩
        · exact hprop p hp

theorem arrivalClasses_spec (N F n birth : ℕ) (hN : 2 ≤ N) :
    ∀ (cs : List ℕ) (f0 : ℕ), 1 ≤ f0 → f0 + cs.length ≤ F + 1 →
      ∀ (qs : Queues) (g : Gen),
        ∃ qs' g', arrivalClasses N F n birth f0 cs qs g = .ok (qs', g') ∧
          g'.pois = g.pois ∧
          (∀ m c, m ≠ n → qs' m c = qs m c) ∧
          (∀ c, c < f0 ∨ f0 + cs.length ≤ c → qs' n c = qs n c) ∧
          ∀ j, j < cs.length →
            ∃ L : List Packet, qs' n (f0 + j) = qs n (f0 + j) ++ L ∧
              L.length = cs.getD j 0 ∧ ∀ p ∈ L, p.hop = 0 ∧ p.cls = f0 + j := by
  intro cs
  induction cs with
  | nil =>
    intro f0 _ _ qs g
    exact ⟨qs, g, rfl, rfl, fun m c _ => rfl, fun c _ => rfl, fun j hj => by simp at hj⟩
  | cons c0 rest ih =>
    intro f0 hf0 hle qs g
    have hlee : f0 + rest.length + 1 ≤ F + 1 := by
      simpa [Nat.add_assoc, Nat.add_comm] using hle
    have hf0F : f0 ≤ F := by omega
    obtain ⟨qs1, g1, hu, hupois, huother, L0, happ0, hlen0, hprop0⟩ :=
      arrivalUnits_spec N F n f0 birth hN hf0F c0 qs g
    obtain ⟨qs', g', hc, hcpois, hcother, hcout, hcin⟩ :=
      ih (f0 + 1) (by omega) (by omega) qs1 g1
    refine ⟨qs', g', ?_, ?_, ?_, ?_, ?_⟩
    · unfold arrivalClasses
      rw [hu]
      exact hc
    · rw [hcpois, hupois]
    · intro m c hm
      rw [hcother m c hm, huother m c (fun hmc => hm hmc.1)]
    · intro c hc0
      have hcf0 : c ≠ f0 := by
        rcases hc0 with h | h
        · omega
        · simp only [List.length_cons] at h; omega
      have h2 : qs' n c = qs1 n c := by
        refine hcout c ?_
        rcases hc0 with h | h
        · left; omega
        · right; simp only [List.length_cons] at h; omega
      rw [h2, huother n c (fun hmc => hcf0 hmc.2)]
    · intro j hj
      cases j with
      | zero =>
        have h2 : qs' n (f0 + 0) = qs1 n (f0 + 0) := hcout (f0 + 0) (by left; omega)
        refine ⟨L0, ?_, by simpa using hlen0, ?_⟩
        · rw [h2]; simpa using happ0
        · intro p hp
          have := hprop0 p hp
          simpa using this
      | succ m =>
        have hm : m < rest.length := by simp only [List.length_cons] at hj; omega
        obtain ⟨L, happ, hlenL, hprop⟩ := hcin m hm
        have h1 : qs1 n (f0 + 1 + m) = qs n (f0 + 1 + m) :=
          huother n _ (fun hmc => by omega)
        refine ⟨L, ?_, by simpa using hlenL, ?_⟩
        · rw [show f0 + (m + 1) = f0 + 1 + m from by omega, happ, h1]
        · intro p hp
          obtain ⟨hh, hcl⟩ := hprop p hp
          exact ⟨hh, by rw [hcl]; omega⟩

theorem arrivalNodes_spec (N F birth : ℕ) (counts : List ℕ) (hN : 2 ≤ N)
    (hlen : counts.length ≤ F) :
    ∀ (ns : List ℕ), ns.Nodup → ∀ (qs : Queues) (g : Gen),
      ∃ qs' g', arrivalNodes N F birth counts ns qs g = .ok (qs', g') ∧
        g'.pois = g.pois ∧
        (∀ m, m ∉ ns → ∀ c, qs' m c = qs m c) ∧
        ∀ m, m ∈ ns →
          (∀ c, c = 0 ∨ counts.length + 1 ≤ c → qs' m c = qs m c) ∧
          ∀ j, j < counts.length →
            ∃ L : List Packet, qs' m (1 + j) = qs m (1 + j) ++ L ∧
              L.length = counts.getD j 0 ∧ ∀ p ∈ L, p.hop = 0 ∧ p.cls = 1 + j := by
  intro ns
  induction ns with
  | nil =>
    intro _ qs g
    exact ⟨qs, g, rfl, rfl, fun m _ c => rfl, fun m hm => absurd hm (List.not_mem_nil m)⟩
  | cons n0 rest ih =>
    intro hnd qs g
    obtain ⟨qs1, g1, hc, hcpois, hcother, hcout, hcin⟩ :=
      arrivalClasses_spec N F n0 birth hN counts 1 le_rfl (by omega) qs g
    obtain ⟨qs', g', hn, hnpois, hnother, hnin⟩ := ih (List.Nodup.of_cons hnd) qs1 g1
    have hn0rest : n0 ∉ rest := (List.nodup_cons.mp hnd).1
    refine ⟨qs', g', ?_, ?_, ?_, ?_⟩
    · unfold arrivalNodes
      rw [hc]
      exact hn
    · rw [hnpois, hcpois]
    · intro m hm c
      have hm0 : m ≠ n0 := fun h => hm (h ▸ List.mem_cons_self _ _)
      have hmr : m ∉ rest := fun h => hm (List.mem_cons_of_mem _ h)
      rw [hnother m hmr c, hcother m c hm0]
    · intro m hm
      rcases List.mem_cons.mp hm with rfl | hmr
      · constructor
        · intro c hc0
          rw [hnother m hn0rest c]
          refine hcout c ?_
          rcases hc0 with rfl | h
          · left; omega
          · right; omega
        · intro j hj
          obtain ⟨L, happ, hlen0, hprop⟩ := hcin j hj
          refine ⟨L, ?_, hlen0, hprop⟩
          rw [hnother m hn0rest (1 + j), happ]
      · have hm0 : m ≠ n0 := fun h => hn0rest (h ▸ hmr)
        obtain ⟨hout, hin⟩ := hnin m hmr
        constructor
        · intro c hc0
          rw [hout c hc0, hcother m c hm0]
        · intro j hj
          obtain ⟨L, happ, hlen0, hprop⟩ := hin j hj
          exact ⟨L, by rw [happ, hcother m _ hm0], hlen0, hprop⟩

theorem arrivalPhase_spec (cfg : Config) (net : Net) (birth : ℕ) (qs : Queues)
    (g : Gen) (hlen : cfg.lam.length ≤ cfg.F) (hN : 2 ≤ net.N) :
    ∃ qs' g', arrivalPhase cfg net birth qs g = .ok (qs', g') ∧
      g'.pois = g.pois + 1 ∧
      (∀ m, net.N ≤ m → ∀ c, qs' m c = qs m c) ∧
      ∀ m, m < net.N →
        (∀ c, c = 0 ∨ cfg.lam.length + 1 ≤ c → qs' m c = qs m c) ∧
        ∀ j, j < cfg.lam.length →
          ∃ L : List Packet, qs' m (1 + j) = qs m (1 + j) ++ L ∧
            L.length = (poisCounts g.stream g.k cfg.lam).getD j 0 ∧
            ∀ p ∈ L, p.hop = 0 ∧ p.cls = 1 + j := by
  have hcl : (poisCounts g.stream g.k cfg.lam).length = cfg.lam.length :=
    poisCounts_length _ _ _
  obtain ⟨qs', g', hn, hnpois, hnother, hnin⟩ :=
    arrivalNodes_spec net.N cfg.F birth (poisCounts g.stream g.k cfg.lam) hN
      (by rw [hcl]; exact hlen) (List.range net.N) (List.nodup_range _) qs
      { g with k := g.k + cfg.lam.length, pois := g.pois + 1 }
  refine ⟨qs', g', ?_, ?_, ?_, ?_⟩
  · unfold arrivalPhase poisson_arrivals
    exact hn
  · rw [hnpois]
  · intro m hm c
    exact hnother m (by simp only [List.mem_range]; omega) c
  · intro m hm
    obtain ⟨hout, hin⟩ := hnin m (List.mem_range.mpr hm)
    refine ⟨fun c hc => hout c ?_, fun j hj => hin j (by rw [hcl]; exact hj)⟩
    rcases hc with rfl | h
    · left; rfl
    · right; rw [hcl]; exact h

/-! ## Refactor of arrivalPhase for C2 -/

/-- C2 (amended): within one frame the per-class arrival counts are drawn by a
SINGLE Poisson call — the traffic generator is invoked once per frame, not
once per node per frame — and that one count vector is reused by every node:
under a well-formed configuration the phase succeeds, the Poisson-call counter
rises by exactly one, and every node `m < N` receives, for each class `1+j`
with `j < len(lam)`, exactly `counts[j]` new packets, where `counts` is the
single vector drawn at the top of the frame. -/
theorem arrival_single_poisson_draw (cfg : Config) (net : Net) (birth : ℕ)
    (qs : Queues) (g : Gen) (hlen : cfg.lam.length ≤ cfg.F) (hN : 2 ≤ net.N) :
    ∃ qs' g', arrivalPhase cfg net birth qs g = .ok (qs', g') ∧
      g'.pois = g.pois + 1 ∧
      ∀ m, m < net.N → ∀ j, j < cfg.lam.length →
        (qs' m (1 + j)).length =
          (qs m (1 + j)).length + (poisCounts g.stream g.k cfg.lam).getD j 0 := by
  obtain ⟨qs', g', h, hp, -, hin⟩ := arrivalPhase_spec cfg net birth qs g hlen hN
  refine ⟨qs', g', h, hp, fun m hm j hj => ?_⟩
  obtain ⟨L, happ, hlen0, -⟩ := (hin m hm).2 j hj
  rw [happ, List.length_append, hlen0]

/-! ## Concrete instances for closed statements -/

/-- Zero-rate config: `F=1, hopmax=8, S=1, frames=1, lam=[0]`. -/
def cfgZero : Config := ⟨1, 8, 1, 1, [0]⟩

/-- Config with one positive rate: `F=1, hopmax=8, S=1, frames=1, lam=[3]`. -/
def cfgA : Config := ⟨1, 8, 1, 1, [3]⟩

/-- Mismatched config: `F=2` but `lam=[3]` has length 1. -/
def cfgMis : Config := ⟨2, 8, 1, 1, [3]⟩

theorem net2_paths :
    ∀ u v, u < net2.N → v < net2.N → u ≠ v → (net2.path u v).isSome := by
  intro u v hu hv huv
  have h2 : net2.N = 2 := rfl
  rw [h2] at hu hv
  interval_cases u <;> interval_cases v <;> simp_all [net2]

/-- Witness for C2 at the two-node grid and a concrete stream. -/
theorem arrival_single_poisson_draw_w :
    ∃ qs' g', arrivalPhase cfgA net2 0 (fun _ _ => []) (genC 1) = .ok (qs', g') ∧
      g'.pois = (genC 1).pois + 1 ∧
      ∀ m, m < net2.N → ∀ j, j < cfgA.lam.length →
        (qs' m (1 + j)).length =
          ((fun _ _ => ([] : List Packet)) m (1 + j)).length +
            (poisCounts (genC 1).stream (genC 1).k cfgA.lam).getD j 0 :=
  arrival_single_poisson_draw cfgA net2 0 (fun _ _ => []) (genC 1)
    (by decide) (by decide)

/-- C2 counterexample: with `N = 2` nodes, one frame's arrival phase performs
exactly ONE Poisson call — the claim's one-independent-draw-per-node would
require `N = 2` calls. -/
theorem arrival_single_poisson_draw_cx :
    ∃ qs' g', arrivalPhase cfgA net2 0 (fun _ _ => []) (genC 1) = .ok (qs', g') ∧
      g'.pois = 1 ∧ (1 : ℕ) ≠ net2.N := by
  exact ⟨_, _, rfl, rfl, by decide⟩

/-! ## C3: configuration errors are not rejected up front -/

theorem aux_mismatch_run (cfg : Config) (net : Net) (g : Gen)
    (hshort : cfg.lam.length < cfg.F) (hN : 2 ≤ net.N)
    (hpath : ∀ u v, u < net.N → v < net.N → u ≠ v → (net.path u v).isSome)
    (hframes : 1 ≤ cfg.frames) :
    (∃ st0, setup cfg net g = .ok st0) ∧ run cfg net g = .error Err.lamIndex := by
  obtain ⟨st0, hs, hnodes, hgen, hrecs, htime⟩ := setup_ok cfg net g hN hpath
  have hframe : frameStep cfg net st0 = .error Err.lamIndex := by
    obtain ⟨qs1, g1, ha, -, -, -⟩ :=
      arrivalPhase_spec cfg net st0.time st0.nodes st0.gen (le_of_lt hshort) hN
    unfold frameStep
    rw [ha]
    dsimp only
    rw [if_neg (by omega)]
  refine ⟨⟨st0, hs⟩, ?_⟩
  unfold run
  rw [hs]
  obtain ⟨m, hm⟩ : ∃ m, cfg.frames = m + 1 := ⟨cfg.frames - 1, by omega⟩
  rw [hm]
  unfold iterateFrames
  dsimp only
  rw [hframe]

/-- C3 (amended): a mismatch between `F` and the length of `lam` is NOT
rejected before the simulation starts — the pre-loop setup (topology, mask,
scheduler construction) succeeds with no validation — and with `lam` shorter
than `F` the run instead fails fatally inside the first frame, at the
scheduler step's out-of-range read of the rate vector, after that frame's
arrival phase has already executed.  (Degenerate topologies with fewer than
two nodes do abort in the scheduler constructor before any frame.) -/
theorem config_mismatch_not_rejected (cfg : Config) (net : Net) (g : Gen)
    (hshort : cfg.lam.length < cfg.F) (hN : 2 ≤ net.N)
    (hpath : ∀ u v, u < net.N → v < net.N → u ≠ v → (net.path u v).isSome)
    (hframes : 1 ≤ cfg.frames) :
    (∃ st0, setup cfg net g = .ok st0) ∧ run cfg net g = .error Err.lamIndex :=
  aux_mismatch_run cfg net g hshort hN hpath hframes

/-- Witness for C3 (amended) at the concrete mismatched configuration. -/
theorem config_mismatch_not_rejected_w :
    (∃ st0, setup cfgMis net2 (genC 1) = .ok st0) ∧
      run cfgMis net2 (genC 1) = .error Err.lamIndex :=
  config_mismatch_not_rejected cfgMis net2 (genC 1) (by decide) (by decide)
    net2_paths (by decide)

/-- C3 counterexample: at the concrete mismatched configuration the claim
fails — setup succeeds (nothing is rejected before the simulation starts),
frame 0's arrival phase runs and enqueues a packet at node 0, and only then
does the run die mid-frame with the scheduler's index error. -/
theorem config_mismatch_cx :
    (∃ st0, setup cfgMis net2 (genC 1) = .ok st0) ∧
      run cfgMis net2 (genC 1) = .error Err.lamIndex ∧
      (∃ qs' g', arrivalPhase cfgMis net2 0 (fun _ _ => []) (genC 1) = .ok (qs', g') ∧
        qs' 0 1 ≠ []) := by
  have h := aux_mismatch_run cfgMis net2 (genC 1) (by decide) (by decide)
    net2_paths (by decide)
  exact ⟨h.1, h.2, ⟨_, _, rfl, by decide⟩⟩

/-! ## C1: all-zero arrival rates -/

theorem popSpec_empty (q : NodeQ) (F x : ℕ) (h : ∀ c, q c = []) :
    popSpec q F x = none := by
  unfold popSpec
  rw [dif_neg (not_not_intro (h x)), dif_neg]
  rintro ⟨c, -, hc⟩
  exact hc (h c)

theorem serviceNode_empty (cfg : Config) (net : Net) (t s n : ℕ) (st : SvcState)
    (h : ∀ m c, st.qs m c = []) :
    serviceNode cfg net t s n st = { st with gen := (st.gen.next).2 } := by
  unfold serviceNode
  rw [pop_by_policy_eq_popSpec, popSpec_empty _ _ _ (h n)]
  rfl

theorem serviceNodesGo_empty (cfg : Config) (net : Net) (t s : ℕ) :
    ∀ (ns : List ℕ) (st : SvcState), (∀ m c, st.qs m c = []) →
      ∃ g2, serviceNodesGo cfg net t s ns st = { st with gen := g2 } := by
  intro ns
  induction ns with
  | nil => intro st h; exact ⟨st.gen, rfl⟩
  | cons n rest ih =>
    intro st h
    unfold serviceNodesGo
    rw [serviceNode_empty cfg net t s n st h]
    obtain ⟨g2, hg⟩ := ih { st with gen := (st.gen.next).2 } (fun m c => h m c)
    exact ⟨g2, hg⟩

theorem serviceSlotsGo_empty (cfg : Config) (net : Net) (t : ℕ) :
    ∀ (slots : List ℕ) (st : SvcState), (∀ m c, st.qs m c = []) →
      ∃ g2, serviceSlotsGo cfg net t slots st = { st with gen := g2 } := by
  intro slots
  induction slots with
  | nil => intro st h; exact ⟨st.gen, rfl⟩
  | cons s rest ih =>
    intro st h
    unfold serviceSlotsGo
    obtain ⟨g1, hg1⟩ := serviceNodesGo_empty cfg net t s (List.range net.N) st h
    rw [hg1]
    obtain ⟨g2, hg2⟩ := ih { st with gen := g1 } (fun m c => h m c)
    exact ⟨g2, hg2⟩

theorem frameStep_zero (cfg : Config) (net : Net) (st : SimState)
    (hlam : ∀ a ∈ cfg.lam, a = 0) (hlen : cfg.lam.length = cfg.F)
    (hN : 2 ≤ net.N) (hempty : ∀ m c, st.nodes m c = []) :
    ∃ st', frameStep cfg net st = .ok st' ∧ (∀ m c, st'.nodes m c = []) ∧
      st'.recs = st.recs ++ [⟨st.recs.length, 0, 0, 0, 0⟩] := by
  obtain ⟨qs1, g1, ha, hp, hother, hin⟩ :=
    arrivalPhase_spec cfg net st.time st.nodes st.gen (le_of_eq hlen) hN
  have hq1 : ∀ m c, qs1 m c = [] := by
    intro m c
    rcases Nat.lt_or_ge m net.N with hm | hm
    · obtain ⟨hout, hinm⟩ := hin m hm
      rcases Nat.eq_zero_or_pos c with rfl | hc
      · rw [hout 0 (Or.inl rfl)]; exact hempty m 0
      · rcases Nat.lt_or_ge c (cfg.lam.length + 1) with hcl | hcl
        · obtain ⟨j, rfl⟩ : ∃ j, c = 1 + j := ⟨c - 1, by omega⟩
          obtain ⟨L, happ, hlenL, -⟩ := hinm j (by omega)
          have hL : L = [] := List.length_eq_zero.mp
            (by rw [hlenL, poisCounts_zero _ cfg.lam st.gen.k hlam j])
          rw [happ, hL, hempty m (1 + j), List.nil_append]
        · rw [hout c (Or.inr (by omega))]; exact hempty m c
    · rw [hother m hm c]; exact hempty m c
  unfold frameStep
  rw [ha]
  dsimp only
  rw [if_pos (le_of_eq hlen.symm)]
  obtain ⟨g2, hsv⟩ := serviceSlotsGo_empty cfg net st.time (List.range cfg.S)
    { qs := qs1, gen := g1, delivered := 0, dropped := 0, lats := [] }
    (fun m c => hq1 m c)
  rw [hsv]
  refine ⟨_, rfl, fun m c => hq1 m c, ?_⟩
  dsimp only
  norm_num

theorem iterateFrames_zero (cfg : Config) (net : Net)
    (hlam : ∀ a ∈ cfg.lam, a = 0) (hlen : cfg.lam.length = cfg.F)
    (hN : 2 ≤ net.N) :
    ∀ (k : ℕ) (st : SimState), (∀ m c, st.nodes m c = []) →
      ∃ st', iterateFrames cfg net k st = .ok st' ∧ (∀ m c, st'.nodes m c = []) ∧
        st'.recs = st.recs ++ (List.range k).map
          (fun i => ⟨st.recs.length + i, 0, 0, 0, 0⟩) := by
  intro k
  induction k with
  | zero => intro st h; exact ⟨st, rfl, h, by simp⟩
  | succ m ih =>
    intro st h
    obtain ⟨st1, hf, h1, hrecs1⟩ := frameStep_zero cfg net st hlam hlen hN h
    obtain ⟨st', hit, h', hrecs'⟩ := ih st1 h1
    refine ⟨st', ?_, h', ?_⟩
    · unfold iterateFrames
      rw [hf]
      exact hit
    · rw [hrecs', hrecs1, List.range_succ_eq_map, List.map_cons, List.map_map,
        List.append_assoc, List.singleton_append]
      congr 1
      simp only [Function.comp_def, Nat.add_zero, List.length_append, List.length_cons,
        List.length_nil]
      congr 1
      refine List.map_congr_left fun a _ => ?_
      congr 1
      omega

theorem aux_run_zero (cfg : Config) (net : Net) (g : Gen)
    (hlam : ∀ a ∈ cfg.lam, a = 0) (hlen : cfg.lam.length = cfg.F)
    (hN : 2 ≤ net.N)
    (hpath : ∀ u v, u < net.N → v < net.N → u ≠ v → (net.path u v).isSome) :
    run cfg net g = .ok ((List.range cfg.frames).map fun i => ⟨i, 0, 0, 0, 0⟩) := by
  obtain ⟨st0, hs, hnodes, hgen, hrecs, htime⟩ := setup_ok cfg net g hN hpath
  obtain ⟨st', hit, -, hrecs'⟩ := iterateFrames_zero cfg net hlam hlen hN cfg.frames st0
    (by rw [hnodes]; exact fun m c => rfl)
  unfold run
  rw [hs]
  dsimp only
  rw [hit]
  dsimp only
  rw [hrecs', hrecs]
  simp

/-- C1 (amended): if the mean arrival rate vector `lam` is all-zero then the
run succeeds and every frame's record is `delivered = 0`, `dropped = 0`,
`latency = 0` and `pdr = 0` — the pdr is `0 / max(0, 1) = 0`, NOT `1` as the
spec's scenario states. -/
theorem run_all_zero_lam (cfg : Config) (net : Net) (g : Gen)
    (hlam : ∀ a ∈ cfg.lam, a = 0) (hlen : cfg.lam.length = cfg.F)
    (hN : 2 ≤ net.N)
    (hpath : ∀ u v, u < net.N → v < net.N → u ≠ v → (net.path u v).isSome) :
    run cfg net g = .ok ((List.range cfg.frames).map fun i => ⟨i, 0, 0, 0, 0⟩) :=
  aux_run_zero cfg net g hlam hlen hN hpath

/-- Witness for C1 (amended) at the concrete zero-rate configuration. -/
theorem run_all_zero_lam_w :
    run cfgZero net2 (genC 0) = .ok [⟨0, 0, 0, 0, 0⟩] := by
  have h := run_all_zero_lam cfgZero net2 (genC 0) (by simp [cfgZero]) rfl
    (by decide) net2_paths
  simpa using h

/-- C1 counterexample: at the concrete zero-rate configuration the single
frame's recorded pdr is `0`, not `1` as the claim states. -/
theorem run_all_zero_lam_cx :
    ∃ r : FrameRec, run cfgZero net2 (genC 0) = .ok [r] ∧ r.pdr = 0 ∧ r.pdr ≠ 1 := by
  have h := aux_run_zero cfgZero net2 (genC 0) (by simp [cfgZero]) rfl
    (by decide) net2_paths
  refine ⟨⟨0, 0, 0, 0, 0⟩, by simpa using h, rfl, by norm_num⟩

/-! ## C8: hop-count invariant -/

/-- Every packet residing in any queue has hop count at most `hm`. -/
def QBound (hm : ℕ) (qs : Queues) : Prop :=
  ∀ n c p, p ∈ qs n c → p.hop ≤ hm

theorem headI_mem_of_ne_nil {l : List Packet} (h : l ≠ []) : l.headI ∈ l := by
  cases l with
  | nil => exact absurd rfl h
  | cons a t => simp

theorem QBound_enqueue (hm : ℕ) (qs : Queues) (n c : ℕ) (p : Packet)
    (hq : QBound hm qs) (hp : p.hop ≤ hm) : QBound hm (enqueue qs n c p) := by
  intro m d x hx
  unfold enqueue at hx
  by_cases h : m = n ∧ d = c
  · rw [if_pos h] at hx
    rcases List.mem_append.mp hx with hx | hx
    · exact hq m d x hx
    · rw [List.mem_singleton.mp hx]; exact hp
  · rw [if_neg h] at hx
    exact hq m d x hx

theorem arrivalUnits_QB (N F n f birth hm : ℕ) :
    ∀ (count : ℕ) (qs : Queues) (g : Gen) (qs' : Queues) (g' : Gen),
      arrivalUnits N F n f birth count qs g = .ok (qs', g') →
      QBound hm qs → QBound hm qs' := by
  intro count
  induction count with
  | zero =>
    intro qs g qs' g' h hq
    unfold arrivalUnits at h
    injection h with h
    injection h with h1 h2
    subst h1
    exact hq
  | succ k ih =>
    intro qs g qs' g' h hq
    unfold arrivalUnits at h
    by_cases hN : N ≤ 1
    · rw [if_pos hN] at h; simp at h
    · rw [if_neg hN] at h
      by_cases hf : f ≤ F
      · rw [if_pos hf] at h
        exact ih _ _ _ _ h (QBound_enqueue hm qs n f _ hq (Nat.zero_le hm))
      · rw [if_neg hf] at h; simp at h

theorem arrivalClasses_QB (N F n birth hm : ℕ) :
    ∀ (cs : List ℕ) (f0 : ℕ) (qs : Queues) (g : Gen) (qs' : Queues) (g' : Gen),
      arrivalClasses N F n birth f0 cs qs g = .ok (qs', g') →
      QBound hm qs → QBound hm qs' := by
  intro cs
  induction cs with
  | nil =>
    intro f0 qs g qs' g' h hq
    unfold arrivalClasses at h
    injection h with h
    injection h with h1 h2
    subst h1
    exact hq
  | cons c0 rest ih =>
    intro f0 qs g qs' g' h hq
    unfold arrivalClasses at h
    cases hu : arrivalUnits N F n f0 birth c0 qs g with
    | error e => rw [hu] at h; simp at h
    | ok pair =>
      obtain ⟨qs1, g1⟩ := pair
      rw [hu] at h
      exact ih (f0 + 1) qs1 g1 qs' g' h
        (arrivalUnits_QB N F n f0 birth hm c0 qs g qs1 g1 hu hq)

theorem arrivalNodes_QB (N F birth hm : ℕ) (counts : List ℕ) :
    ∀ (ns : List ℕ) (qs : Queues) (g : Gen) (qs' : Queues) (g' : Gen),
      arrivalNodes N F birth counts ns qs g = .ok (qs', g') →
      QBound hm qs → QBound hm qs' := by
  intro ns
  induction ns with
  | nil =>
    intro qs g qs' g' h hq
    unfold arrivalNodes at h
    injection h with h
    injection h with h1 h2
    subst h1
    exact hq
  | cons n0 rest ih =>
    intro qs g qs' g' h hq
    unfold arrivalNodes at h
    cases hc : arrivalClasses N F n0 birth 1 counts qs g with
    | error e => rw [hc] at h; simp at h
    | ok pair =>
      obtain ⟨qs1, g1⟩ := pair
      rw [hc] at h
      exact ih qs1 g1 qs' g' h
        (arrivalClasses_QB N F n0 birth hm counts 1 qs g qs1 g1 hc hq)

theorem arrivalPhase_QB (cfg : Config) (net : Net) (birth hm : ℕ) (qs : Queues)
    (g : Gen) (qs' : Queues) (g' : Gen)
    (h : arrivalPhase cfg net birth qs g = .ok (qs', g')) (hq : QBound hm qs) :
    QBound hm qs' :=
  arrivalNodes_QB net.N cfg.F birth hm (poisson_arrivals g cfg.lam).1
    (List.range net.N) qs (poisson_arrivals g cfg.lam).2 qs' g' h hq

theorem popSpec_some_mem (q : NodeQ) (F x c : ℕ) (p : Packet)
    (h : popSpec q F x = some (c, p)) : q c ≠ [] ∧ p = (q c).headI := by
  unfold popSpec at h
  split_ifs at h with h1 h2
  · injection h with h
    injection h with ha hb
    subst ha
    subst hb
    exact ⟨h1, rfl⟩
  · injection h with h
    injection h with ha hb
    subst ha
    subst hb
    exact ⟨(Nat.find_spec h2).2, rfl⟩

theorem dequeue_mem (q : NodeQ) (c d : ℕ) (p : Packet) (h : p ∈ dequeue q c d) :
    p ∈ q d := by
  unfold dequeue at h
  by_cases hd : d = c
  · rw [if_pos hd] at h
    exact List.mem_of_mem_tail h
  · rw [if_neg hd] at h
    exact h

theorem serviceNode_QB (cfg : Config) (net : Net) (t s n : ℕ) (st : SvcState)
    (hq : QBound cfg.hopmax st.qs) :
    QBound cfg.hopmax (serviceNode cfg net t s n st).qs := by
  unfold serviceNode
  rw [pop_by_policy_eq_popSpec]
  cases hps : popSpec (st.qs n) cfg.F (st.gen.stream st.gen.k % (cfg.F + 1)) with
  | none => exact hq
  | some cp =>
    obtain ⟨c, p⟩ := cp
    dsimp only
    obtain ⟨hne, hphead⟩ := popSpec_some_mem _ _ _ _ _ hps
    have hphop : p.hop ≤ cfg.hopmax :=
      hq n c p (hphead ▸ headI_mem_of_ne_nil hne)
    have hq1 : QBound cfg.hopmax
        (fun m => if m = n then dequeue (st.qs n) c else st.qs m) := by
      intro m d x hx
      by_cases hmn : m = n
      · simp only [if_pos hmn] at hx
        exact hq n d x (dequeue_mem _ _ _ _ hx)
      · simp only [if_neg hmn] at hx
        exact hq m d x hx
    by_cases h1 : cfg.hopmax < p.hop + 1
    · rw [if_pos h1]; exact hq1
    · rw [if_neg h1]
      split
      · exact hq1
      · split
        · exact hq1
        · split
          · exact hq1
          · split
            · exact QBound_enqueue _ _ _ _ _ hq1
                (by show p.hop + 1 ≤ cfg.hopmax; omega)
            · exact hq1

theorem serviceNodesGo_QB (cfg : Config) (net : Net) (t s : ℕ) :
    ∀ (ns : List ℕ) (st : SvcState), QBound cfg.hopmax st.qs →
      QBound cfg.hopmax (serviceNodesGo cfg net t s ns st).qs := by
  intro ns
  induction ns with
  | nil => intro st hq; exact hq
  | cons n rest ih =>
    intro st hq
    exact ih (serviceNode cfg net t s n st) (serviceNode_QB cfg net t s n st hq)

theorem serviceSlotsGo_QB (cfg : Config) (net : Net) (t : ℕ) :
    ∀ (slots : List ℕ) (st : SvcState), QBound cfg.hopmax st.qs →
      QBound cfg.hopmax (serviceSlotsGo cfg net t slots st).qs := by
  intro slots
  induction slots with
  | nil => intro st hq; exact hq
  | cons s rest ih =>
    intro st hq
    exact ih _ (serviceNodesGo_QB cfg net t s (List.range net.N) st hq)

theorem frameStep_QB (cfg : Config) (net : Net) (st st' : SimState)
    (h : frameStep cfg net st = .ok st') (hq : QBound cfg.hopmax st.nodes) :
    QBound cfg.hopmax st'.nodes := by
  unfold frameStep at h
  cases ha : arrivalPhase cfg net st.time st.nodes st.gen with
  | error e => rw [ha] at h; simp at h
  | ok qg =>
    obtain ⟨qs1, g1⟩ := qg
    rw [ha] at h
    dsimp only at h
    by_cases hg : cfg.F ≤ cfg.lam.length
    · rw [if_pos hg] at h
      injection h with h
      subst h
      exact serviceSlotsGo_QB cfg net st.time (List.range cfg.S)
        { qs := qs1, gen := g1, delivered := 0, dropped := 0, lats := [] }
        (arrivalPhase_QB cfg net st.time cfg.hopmax st.nodes st.gen qs1 g1 ha hq)
    · rw [if_neg hg] at h; simp at h

theorem setup_nodes_empty (cfg : Config) (net : Net) (g : Gen) (st0 : SimState)
    (h : setup cfg net g = .ok st0) : ∀ m c, st0.nodes m c = [] := by
  unfold setup at h
  cases hh : odHops net with
  | error e => rw [hh] at h; simp at h
  | ok hops =>
    rw [hh] at h
    dsimp only at h
    by_cases hP : (odPairs net.N).length = 0
    · rw [if_pos hP] at h; simp at h
    · rw [if_neg hP] at h
      injection h with h
      subst h
      intro m c
      rfl

theorem iterateFrames_QB (cfg : Config) (net : Net) :
    ∀ (k : ℕ) (st st' : SimState), iterateFrames cfg net k st = .ok st' →
      QBound cfg.hopmax st.nodes → QBound cfg.hopmax st'.nodes := by
  intro k
  induction k with
  | zero =>
    intro st st' h hq
    injection h with h
    subst h
    exact hq
  | succ m ih =>
    intro st st' h hq
    unfold iterateFrames at h
    cases hf : frameStep cfg net st with
    | error e => rw [hf] at h; simp at h
    | ok st1 =>
      rw [hf] at h
      exact ih st1 st' h (frameStep_QB cfg net st st1 hf hq)

/-- C8: every packet residing in any node's queue of any reachable state of
the run has hop count at most `hopmax` — the invariant holds at setup (empty
queues), arrivals enter with hop `0`, the service step drops a popped packet
whenever `hop + 1 > hopmax` BEFORE incrementing, and a packet is re-enqueued
only after incrementing when its new hop count is still `≤ hopmax` — and
consequently a packet popped for forwarding satisfies `hop ≤ hopmax`, so its
hop count never exceeds `hopmax + 1` at the moment it is evaluated. -/
theorem queue_hop_invariant :
    (∀ (cfg : Config) (net : Net) (g : Gen) (k : ℕ) (st0 st : SimState),
      setup cfg net g = .ok st0 → iterateFrames cfg net k st0 = .ok st →
      QBound cfg.hopmax st.nodes) ∧
    (∀ (hm : ℕ) (q : NodeQ) (F : ℕ) (g : Gen) (c : ℕ) (p : Packet)
      (q' : NodeQ) (g2 : Gen), (∀ d x, x ∈ q d → x.hop ≤ hm) →
      pop_by_policy q F g = (some (c, p), q', g2) →
      p.hop ≤ hm ∧ p.hop + 1 ≤ hm + 1) := by
  constructor
  · intro cfg net g k st0 st hs hit
    refine iterateFrames_QB cfg net k st0 st hit ?_
    intro m c p hp
    rw [setup_nodes_empty cfg net g st0 hs m c] at hp
    simp at hp
  · intro hm q F g c p q' g2 hq hpop
    have heq := pop_by_policy_eq_popSpec q F g
    rw [hpop] at heq
    have hfst : some (c, p) = popSpec q F (g.stream g.k % (F + 1)) :=
      congrArg Prod.fst heq
    obtain ⟨hne, hphead⟩ := popSpec_some_mem _ _ _ _ _ hfst.symm
    have : p.hop ≤ hm := hq c p (hphead ▸ headI_mem_of_ne_nil hne)
    exact ⟨this, by omega⟩

/-- Witness for C8: the invariant at a concrete one-frame run, and a concrete
pop at the hop bound. -/
theorem queue_hop_invariant_w :
    ∃ st0 st, setup cfgZero net2 (genC 0) = .ok st0 ∧
      iterateFrames cfgZero net2 1 st0 = .ok st ∧
      QBound cfgZero.hopmax st.nodes := by
  refine ⟨_, _, rfl, rfl, ?_⟩
  exact queue_hop_invariant.1 cfgZero net2 (genC 0) 1 _ _ rfl rfl

/-- Witness for C7 at a concrete scheduler with a nonzero pair count. -/
theorem scheduler_eta_formula_w :
    stepEta (stepsList (mkSched 1 2 (fun _ _ => 1) 1 1) [fun _ => 0]) =
      ((1 : ℝ) + 1 * (2 * maxRowNorm (fun _ _ => 1) 2 1))⁻¹ *
        Real.sqrt (Real.log ((1 : ℕ) + 1) / (([(fun _ => (0 : ℝ))] : List (ℕ → ℝ)).length + 1)) ∧
    ∃ i, i < 2 ∧ rowNorm (fun _ _ => (1 : ℝ)) 1 i = maxRowNorm (fun _ _ => 1) 2 1 := by
  obtain ⟨-, -, -, -, -, h6, h7⟩ :=
    scheduler_eta_formula 1 2 (fun _ _ => 1) 1 1 [fun _ => 0]
  exact ⟨h7, h6 (by decide)⟩

end HopPoc
